import Mathlib

/-!
Shallow embedding of the deterministic pseudonymization core of
`src/Dzien2/01.presidio/03.appp/pseudonymizer.py`, together with proofs of
the specification claims about it.

Modelling conventions:
* Python text is modelled as `List Char` (Python indexes strings by code
  point, so `List Char` slicing matches Python slicing).
* Python machine integers are unbounded, so `Nat` / `Int` model them directly.
* `random.Random(seed)` is modelled by an entropy stream `g : Nat → Nat`;
  the `i`-th call `randint(lo, hi)` returns `lo + g i % (hi + 1 - lo)`,
  which is always inside `[lo, hi]`.  Every concrete Python seed induces
  one such stream, so theorems quantified over all streams cover all seeds.
* Code that can raise (`int(...)` on a non-decimal character, the REGON
  length check) returns `Except`.
* Python `str` case/digit predicates are modelled on the character set the
  development actually touches: ASCII, plus the Unicode superscript digits
  (which Python's `str.isdigit` accepts but `int` rejects).
-/

/-- Width of one 32-bit word, used to model wrap-around arithmetic. -/
def two32 : Nat := 4294967296

/-- Python `random.Random.randint(lo, hi)` for one stream value `s`:
an arbitrary value reduced into the inclusive range `[lo, hi]`. -/
def randint (lo hi s : Nat) : Nat := lo + s % (hi + 1 - lo)

/-- `str(d)` for a single decimal digit `d`. -/
def digitChar (d : Nat) : Char := Char.ofNat (48 + d)

/-- Weighted checksum `sum(digits[i] * weights[i] for i in range(len(weights)))`
(the zip truncates at the shorter list, as the Python loops index only the
weight range). -/
def wsum (weights digits : List Nat) : Nat :=
  (List.zipWith (· * ·) weights digits).sum

/-- `PESEL_WEIGHTS = (1, 3, 7, 9, 1, 3, 7, 9, 1, 3)` -/
def PESEL_WEIGHTS : List Nat := [1, 3, 7, 9, 1, 3, 7, 9, 1, 3]

/-- `NIP_WEIGHTS = (6, 5, 7, 2, 3, 4, 5, 6, 7)` -/
def NIP_WEIGHTS : List Nat := [6, 5, 7, 2, 3, 4, 5, 6, 7]

/-- `REGON_9_WEIGHTS = (8, 9, 2, 3, 4, 5, 6, 7)` -/
def REGON_9_WEIGHTS : List Nat := [8, 9, 2, 3, 4, 5, 6, 7]

/-- `REGON_14_WEIGHTS = (2, 4, 8, 5, 0, 9, 7, 3, 6, 1, 2, 4, 8)` -/
def REGON_14_WEIGHTS : List Nat := [2, 4, 8, 5, 0, 9, 7, 3, 6, 1, 2, 4, 8]

/-- `CASE_SENSITIVE_ENTITIES = frozenset({"PERSON", "ORGANIZATION", "LOCATION"})` -/
def CASE_SENSITIVE_ENTITIES : List String := ["PERSON", "ORGANIZATION", "LOCATION"]

/-- The ten digits of `f"{year:02d}{month:02d}{day:02d}{serial:03d}{gender}"`
for the five bounded draws of `generate_pesel`; since the draws are bounded
(`50 ≤ year ≤ 99`, `month ≤ 12`, `day ≤ 28`, `serial ≤ 999`, `gender ≤ 9`),
the characters of that f-string are exactly these decimal digits. -/
def peselDigits (g : Nat → Nat) : List Nat :=
  let year := randint 50 99 (g 0)
  let month := randint 1 12 (g 1)
  let day := randint 1 28 (g 2)
  let serial := randint 0 999 (g 3)
  let gender := randint 0 9 (g 4)
  [year / 10, year % 10, month / 10, month % 10, day / 10, day % 10,
   serial / 100, serial / 10 % 10, serial % 10, gender]

/-- `PolishIdentifierGenerator.generate_pesel`: the ten drawn digits followed
by the control digit `(10 - checksum % 10) % 10` read back off them. -/
def generate_pesel (g : Nat → Nat) : List Char :=
  (peselDigits g ++ [(10 - wsum PESEL_WEIGHTS (peselDigits g) % 10) % 10]).map digitChar

/-- `[rng.randint(0, 9) for _ in range(n)]` -/
def drawDigits (g : Nat → Nat) (n : Nat) : List Nat :=
  (List.range n).map fun i => randint 0 9 (g i)

/-- The nine digits of a NIP after the checksum-repair step of
`generate_nip`: if the control of the raw draw is 10, the 9th digit is
incremented modulo 10 (`nip_9[8] = (nip_9[8] + 1) % 10`). -/
def nipRepairedDigits (nip9 : List Nat) : List Nat :=
  if wsum NIP_WEIGHTS nip9 % 11 = 10 then
    nip9.set 8 ((nip9.getD 8 0 + 1) % 10)
  else nip9

/-- The nine digits `generate_nip` finally renders. -/
def nipDigits (g : Nat → Nat) : List Nat := nipRepairedDigits (drawDigits g 9)

/-- The control digit `generate_nip` finally renders: the raw control when it
is not 10; otherwise the recomputed control after the repair, with a (dead,
see `nip_repair_unreachable_zero`) fallback forcing it to 0 were it still 10. -/
def nipControl (g : Nat → Nat) : Nat :=
  if wsum NIP_WEIGHTS (drawDigits g 9) % 11 = 10 then
    if wsum NIP_WEIGHTS (nipDigits g) % 11 = 10 then 0
    else wsum NIP_WEIGHTS (nipDigits g) % 11
  else wsum NIP_WEIGHTS (drawDigits g 9) % 11

/-- `PolishIdentifierGenerator.generate_nip`: nine (possibly repaired) digits
plus control digit, optionally grouped as `XXX-XXX-XX-XX`. -/
def generate_nip (g : Nat → Nat) (formatted : Bool := true) : List Char :=
  let nip_str := (nipDigits g ++ [nipControl g]).map digitChar
  if formatted then
    nip_str.take 3 ++ ['-'] ++ (nip_str.drop 3).take 3 ++ ['-'] ++
      (nip_str.drop 6).take 2 ++ ['-'] ++ (nip_str.drop 8).take 2
  else nip_str

/-- REGON control digit: `checksum % 11`, with 10 mapped to 0. -/
def regonControl (checksum : Nat) : Nat :=
  if checksum % 11 = 10 then 0 else checksum % 11

/-- `PolishIdentifierGenerator.generate_regon`; raises `ValueError` (modelled
as `Except.error`) when `length` is neither 9 nor 14. -/
def generate_regon (g : Nat → Nat) (length : Int) : Except String (List Char) :=
  if length = 9 ∨ length = 14 then
    let weights := if length = 9 then REGON_9_WEIGHTS else REGON_14_WEIGHTS
    let digits := drawDigits g (if length = 9 then 8 else 13)
    .ok ((digits ++ [regonControl (wsum weights digits)]).map digitChar)
  else
    .error "REGON musi miec 9 lub 14 cyfr"

/-!  ## Python character and string model -/

/-- The Unicode superscript digits: accepted by Python `str.isdigit` but
rejected by `int(...)`. -/
def superscriptDigits : List Char := ['⁰', '¹', '²', '³', '⁴', '⁵', '⁶', '⁷', '⁸', '⁹']

/-- Python `str.isdigit()` for one character, modelled from the Python
documentation on the character set this development uses: the ASCII decimal
digits plus the superscript digits. -/
def pyCharIsDigit (c : Char) : Bool :=
  c.isDigit || superscriptDigits.contains c

/-- Python `int(c)` for one character: succeeds exactly on decimal digits,
raises `ValueError` otherwise (in particular on superscript digits, which
`str.isdigit` nevertheless accepts). -/
def pyIntOfChar (c : Char) : Except Unit Nat :=
  if c.isDigit then .ok (c.toNat - 48) else .error ()

/-- `s.replace(" ", "").replace("-", "")` -/
def pyClean (s : List Char) : List Char :=
  s.filter fun c => !(c == ' ' || c == '-')

/-- Python `s.isdigit()`: non-empty and every character a digit. -/
def pyStrIsDigit (s : List Char) : Bool :=
  !s.isEmpty && s.all pyCharIsDigit

/-- `[int(c) for c in s]`, propagating the `ValueError` of any single
conversion. -/
def pyDigitsVal : List Char → Except Unit (List Nat)
  | [] => .ok []
  | c :: rest => do
    let d ← pyIntOfChar c
    let ds ← pyDigitsVal rest
    .ok (d :: ds)

/-- `PolishIdentifierValidator.validate_pesel`.  Returns `Except.error` when
the Python code would raise (only possible on non-decimal Unicode digits). -/
def validate_pesel (pesel : List Char) : Except Unit Bool :=
  let pesel_clean := pyClean pesel
  if pesel_clean.length ≠ 11 || !pyStrIsDigit pesel_clean then .ok false
  else do
    let ds ← pyDigitsVal pesel_clean
    let checksum := wsum PESEL_WEIGHTS ds
    let control := (10 - checksum % 10) % 10
    .ok (control == ds.getD 10 0)

/-- `PolishIdentifierValidator.validate_nip`. -/
def validate_nip (nip : List Char) : Except Unit Bool :=
  let nip_clean := pyClean nip
  if nip_clean.length ≠ 10 || !pyStrIsDigit nip_clean then .ok false
  else do
    let ds ← pyDigitsVal nip_clean
    let checksum := wsum NIP_WEIGHTS ds
    let control := checksum % 11
    .ok (control != 10 && control == ds.getD 9 0)

/-- `PolishIdentifierValidator.validate_regon`. -/
def validate_regon (regon : List Char) : Except Unit Bool :=
  let regon_clean := pyClean regon
  if !pyStrIsDigit regon_clean then .ok false
  else if regon_clean.length = 9 ∨ regon_clean.length = 14 then do
    let weights := if regon_clean.length = 9 then REGON_9_WEIGHTS else REGON_14_WEIGHTS
    let ds ← pyDigitsVal regon_clean
    let checksum := wsum weights ds
    let control := regonControl checksum
    .ok (control == ds.getLast?.getD 0)
  else .ok false

/-!  ## Casing matcher -/

/-- A character is cased (Python sense, restricted to the ASCII model). -/
def pyIsCased (c : Char) : Bool := c.isUpper || c.isLower

/-- Python `s.isupper()`: at least one cased character, and every cased
character is uppercase. -/
def pyIsUpperS (s : List Char) : Bool :=
  s.any pyIsCased && s.all fun c => !pyIsCased c || c.isUpper

/-- Python `s.islower()`: at least one cased character, and every cased
character is lowercase. -/
def pyIsLowerS (s : List Char) : Bool :=
  s.any pyIsCased && s.all fun c => !pyIsCased c || c.isLower

/-- Worker for `pySplit`: `acc` holds the reversed characters of the word
currently being read. -/
def pySplitAux : List Char → List Char → List (List Char)
  | [], acc => if acc.isEmpty then [] else [acc.reverse]
  | c :: rest, acc =>
    if c.isWhitespace then
      if acc.isEmpty then pySplitAux rest []
      else acc.reverse :: pySplitAux rest []
    else pySplitAux rest (c :: acc)

/-- Python `s.split()` (no separator): split on runs of whitespace,
discarding empty pieces. -/
def pySplit (s : List Char) : List (List Char) := pySplitAux s []

/-- Python `w.capitalize()`: first character uppercased, the rest lowercased. -/
def pyCapitalize : List Char → List Char
  | [] => []
  | c :: rest => c.toUpper :: rest.map Char.toLower

/-- `w[0].isupper() and w[1:].islower()` for a word known non-empty in
context (on `[]` the Python expression would fault; the code only applies it
to split words of length > 1). -/
def capPatternB : List Char → Bool
  | [] => false
  | c :: rest => c.isUpper && pyIsLowerS rest

/-- `" ".join(words)` -/
def joinSpace (words : List (List Char)) : List Char :=
  match words with
  | [] => []
  | w :: rest => w ++ (rest.map fun x => ' ' :: x).flatten

/-- The title-case branch of `_match_casing`:
`" ".join(w.capitalize() if w else w for w in replacement.split())`
(`split` never yields empty words, so the guard is moot). -/
def capWords (replacement : List Char) : List Char :=
  joinSpace ((pySplit replacement).map pyCapitalize)

/-- `Pseudonymizer._match_casing`. -/
def match_casing (source replacement : List Char) : List Char :=
  if pyIsUpperS source then replacement.map Char.toUpper
  else
    let words := pySplit source
    if !words.isEmpty && (words.filter fun w => decide (1 < w.length)).all capPatternB then
      capWords replacement
    else replacement

/-!  ## Overlap resolver -/

/-- `presidio_analyzer.RecognizerResult`, restricted to the fields the core
reads: span, entity label, confidence score.  Scores are modelled as `ℚ`
(only their ordering matters to the algorithm). -/
structure RecognizerResult where
  start : Nat
  stop : Nat
  entity_type : String
  score : ℚ
deriving DecidableEq

/-- `not (result.end <= accepted.start or result.start >= accepted.end)` -/
def overlapsB (r a : RecognizerResult) : Bool :=
  !(decide (r.stop ≤ a.start) || decide (a.stop ≤ r.start))

/-- Descending-score comparison used by
`sorted(results, key=lambda r: r.score, reverse=True)`. -/
def scoreDesc (a b : RecognizerResult) : Prop := b.score ≤ a.score

instance : DecidableRel scoreDesc :=
  fun a b => inferInstanceAs (Decidable (b.score ≤ a.score))

instance : IsTotal RecognizerResult scoreDesc :=
  ⟨fun a b => le_total b.score a.score⟩

instance : IsTrans RecognizerResult scoreDesc :=
  ⟨fun _ _ _ h1 h2 => le_trans h2 h1⟩

/-- One iteration of the greedy loop in `_filter_overlapping`. -/
def filterStep (filtered : List RecognizerResult) (r : RecognizerResult) :
    List RecognizerResult :=
  if filtered.any fun a => overlapsB r a then filtered else filtered ++ [r]

/-- `Pseudonymizer._filter_overlapping`: stable sort by descending score,
then greedily keep results not overlapping an already-kept one.  (Python's
`sorted` is stable; `List.insertionSort` with this relation inserts each
element after earlier-listed equals, which is the same stable order.) -/
def filter_overlapping (results : List RecognizerResult) : List RecognizerResult :=
  (List.insertionSort scoreDesc results).foldl filterStep []

/-!  ## Orchestrator -/

/-- `Replacement` (frozen dataclass). -/
structure Replacement where
  start : Nat
  stop : Nat
  original : List Char
  replacement : List Char
  entity_type : String
  score : ℚ
deriving DecidableEq

/-- `PseudonymizationResult`. -/
structure PseudonymizationResult where
  original_text : List Char
  pseudonymized_text : List Char
  replacements : List Replacement
deriving DecidableEq

/-- Normalized cache key: `(original.strip().lower(), entity_type)`. -/
def pyStrip (s : List Char) : List Char :=
  ((s.dropWhile Char.isWhitespace).reverse.dropWhile Char.isWhitespace).reverse

/-- Python `s.lower()` (ASCII model). -/
def pyLower (s : List Char) : List Char := s.map Char.toLower

/-- The cache key type of the per-call replacement `mapping` dict. -/
def PKey : Type := List Char × String

instance : DecidableEq PKey := inferInstanceAs (DecidableEq (List Char × String))

/-- `(original.strip().lower(), entity_type)` -/
def normKey (original : List Char) (entity_type : String) : PKey :=
  (pyLower (pyStrip original), entity_type)

/-- Dict lookup on the association-list model of `mapping`. -/
def lookupA (m : List (PKey × List Char)) (k : PKey) : Option (List Char) :=
  match m with
  | [] => none
  | (k', v) :: rest => if k' = k then some v else lookupA rest k

/-- The replacement text one loop iteration of `pseudonymize_with_details`
uses: the cached text when the normalized key is present, otherwise the
freshly generated text (via the black-box generator `gen`, standing for
`_generate_replacement`), with the casing matcher applied for
case-sensitive entity types. -/
def prepVal (gen : List Char → String → List Char)
    (m : List (PKey × List Char)) (original : List Char) (et : String) :
    List Char :=
  match lookupA m (normKey original et) with
  | some v => v
  | none =>
    let generated := gen original et
    if et ∈ CASE_SENSITIVE_ENTITIES then match_casing original generated
    else generated

/-- The cache after one loop iteration: unchanged on a hit, extended with
the new key/replacement pair on a miss (`mapping[key] = replacement_text`). -/
def prepMap (gen : List Char → String → List Char)
    (m : List (PKey × List Char)) (original : List Char) (et : String) :
    List (PKey × List Char) :=
  match lookupA m (normKey original et) with
  | some _ => m
  | none => (normKey original et, prepVal gen m original et) :: m

/-- The replacement-preparation loop of `pseudonymize_with_details`:
for each accepted detection, slice the original substring
(`text[result.start : result.end]`), look its normalized key up in the
cache, on a miss generate and case-match, then record a `Replacement` that
reads the cached text (`mapping[key]`).  Returns the replacement list (in
detection order) and the final cache. -/
def prep (gen : List Char → String → List Char) (text : List Char) :
    List RecognizerResult → List (PKey × List Char) →
    List Replacement × List (PKey × List Char)
  | [], m => ([], m)
  | r :: rest, m =>
    let original := (text.take r.stop).drop r.start
    let res := prep gen text rest (prepMap gen m original r.entity_type)
    (⟨r.start, r.stop, original, prepVal gen m original r.entity_type,
        r.entity_type, r.score⟩ :: res.1,
      res.2)

/-- `text[:start] + replacement + text[end:]` -/
def splice (t : List Char) (s e : Nat) (r : List Char) : List Char :=
  t.take s ++ r ++ t.drop e

/-- Descending-start comparison used by
`sorted(replacements, key=lambda r: r.start, reverse=True)`. -/
def startDesc (a b : Replacement) : Prop := b.start ≤ a.start

instance : DecidableRel startDesc :=
  fun a b => inferInstanceAs (Decidable (b.start ≤ a.start))

instance : IsTotal Replacement startDesc :=
  ⟨fun a b => le_total b.start a.start⟩

instance : IsTrans Replacement startDesc :=
  ⟨fun _ _ _ h1 h2 => le_trans h2 h1⟩

/-- The rewrite loop of `pseudonymize_with_details`: apply all replacements
to the text in descending order of `start`. -/
def applyReplacements (text : List Char) (reps : List Replacement) : List Char :=
  (List.insertionSort startDesc reps).foldl
    (fun t r => splice t r.start r.stop r.replacement) text

/-- `Pseudonymizer.pseudonymize_with_details`, with the external detector's
raw results (`raw`) and the value generator (`gen`) as black-box inputs. -/
def pseudonymize_with_details (gen : List Char → String → List Char)
    (raw : List RecognizerResult) (text : List Char) : PseudonymizationResult :=
  let results := filter_overlapping raw
  let res := prep gen text results []
  let new_text := applyReplacements text res.1
  ⟨text, new_text, res.1⟩

/-!  ## SHA-256 and the deterministic seed function

`hashlib.sha256` modelled over byte lists (`List Nat`, each entry `< 256`),
with 32-bit words as `Nat` reduced modulo `2^32`. -/

/-- Truncate to a 32-bit word. -/
def w32 (n : Nat) : Nat := n % two32

/-- Rotate a 32-bit word right by `n` bits. -/
def rotr32 (n x : Nat) : Nat := (x >>> n) ||| w32 (x <<< (32 - n))

/-- SHA-256 `Ch(x, y, z)`. -/
def shaCh (x y z : Nat) : Nat := (x &&& y) ^^^ ((x ^^^ 4294967295) &&& z)

/-- SHA-256 `Maj(x, y, z)`. -/
def shaMaj (x y z : Nat) : Nat := (x &&& y) ^^^ (x &&& z) ^^^ (y &&& z)

/-- SHA-256 `Σ0`. -/
def bigSigma0 (x : Nat) : Nat := rotr32 2 x ^^^ rotr32 13 x ^^^ rotr32 22 x

/-- SHA-256 `Σ1`. -/
def bigSigma1 (x : Nat) : Nat := rotr32 6 x ^^^ rotr32 11 x ^^^ rotr32 25 x

/-- SHA-256 `σ0`. -/
def smallSigma0 (x : Nat) : Nat := rotr32 7 x ^^^ rotr32 18 x ^^^ (x >>> 3)

/-- SHA-256 `σ1`. -/
def smallSigma1 (x : Nat) : Nat := rotr32 17 x ^^^ rotr32 19 x ^^^ (x >>> 10)

/-- The 64 SHA-256 round constants (the standard table, written in decimal:
the first 32 bits of the fractional parts of the cube roots of the first 64
primes). -/
def shaK : List Nat :=
  [1116352408, 1899447441, 3049323471, 3921009573, 961987163,
   1508970993, 2453635748, 2870763221, 3624381080, 310598401,
   607225278, 1426881987, 1925078388, 2162078206, 2614888103,
   3248222580, 3835390401, 4022224774, 264347078, 604807628,
   770255983, 1249150122, 1555081692, 1996064986, 2554220882,
   2821834349, 2952996808, 3210313671, 3336571891, 3584528711,
   113926993, 338241895, 666307205, 773529912, 1294757372,
   1396182291, 1695183700, 1986661051, 2177026350, 2456956037,
   2730485921, 2820302411, 3259730800, 3345764771, 3516065817,
   3600352804, 4094571909, 275423344, 430227734, 506948616,
   659060556, 883997877, 958139571, 1322822218, 1537002063,
   1747873779, 1955562222, 2024104815, 2227730452, 2361852424,
   2428436474, 2756734187, 3204031479, 3329325298]

/-- The SHA-256 hash state: eight 32-bit words. -/
structure H8 where
  a : Nat
  b : Nat
  c : Nat
  d : Nat
  e : Nat
  f : Nat
  g : Nat
  h : Nat

/-- The SHA-256 initial hash value. -/
def shaH0 : H8 :=
  ⟨1779033703, 3144134277, 1013904242, 2773480762,
   1359893119, 2600822924, 528734635, 1541459225⟩

/-- Big-endian value of a byte list. -/
def beWord (bs : List Nat) : Nat := bs.foldl (fun a b => 256 * a + b) 0

/-- The eight big-endian bytes of a 64-bit value. -/
def beBytes8 (n : Nat) : List Nat :=
  [n >>> 56 % 256, n >>> 48 % 256, n >>> 40 % 256, n >>> 32 % 256,
   n >>> 24 % 256, n >>> 16 % 256, n >>> 8 % 256, n % 256]

/-- The four big-endian bytes of a 32-bit word. -/
def beBytes4 (n : Nat) : List Nat :=
  [n >>> 24 % 256, n >>> 16 % 256, n >>> 8 % 256, n % 256]

/-- SHA-256 padding: append `0x80`, zeros to 56 mod 64 bytes, then the
64-bit big-endian bit length. -/
def padMessage (msg : List Nat) : List Nat :=
  let L := msg.length
  let k := (119 - L % 64) % 64
  msg ++ [128] ++ List.replicate k 0 ++ beBytes8 (8 * L % 18446744073709551616)

/-- Split a list into chunks of `n + 1` elements (the successor argument
makes termination structural). -/
def chunksP (n : Nat) : List α → List (List α)
  | [] => []
  | x :: xs => (x :: xs).take (n + 1) :: chunksP n (xs.drop n)
termination_by l => l.length
decreasing_by
  have := xs.length_drop n
  simp
  omega

/-- The sixteen 32-bit message words of one 64-byte block. -/
def blockWords (block : List Nat) : List Nat := (chunksP 3 block).map beWord

/-- Extend sixteen message words to the 64-entry message schedule. -/
def extendSchedule (ws : List Nat) : List Nat :=
  (List.range 48).foldl
    (fun acc i =>
      acc ++ [w32 (smallSigma1 (acc.getD (i + 14) 0) + acc.getD (i + 9) 0 +
        smallSigma0 (acc.getD (i + 1) 0) + acc.getD i 0)])
    ws

/-- One SHA-256 round. -/
def roundStep (s : H8) (kw : Nat × Nat) : H8 :=
  let t1 := w32 (s.h + bigSigma1 s.e + shaCh s.e s.f s.g + kw.1 + kw.2)
  let t2 := w32 (bigSigma0 s.a + shaMaj s.a s.b s.c)
  ⟨w32 (t1 + t2), s.a, s.b, s.c, w32 (s.d + t1), s.e, s.f, s.g⟩

/-- SHA-256 compression of one 64-byte block into the hash state. -/
def compress (h0 : H8) (block : List Nat) : H8 :=
  let ws := extendSchedule (blockWords block)
  let s := (shaK.zip ws).foldl roundStep h0
  ⟨w32 (h0.a + s.a), w32 (h0.b + s.b), w32 (h0.c + s.c), w32 (h0.d + s.d),
   w32 (h0.e + s.e), w32 (h0.f + s.f), w32 (h0.g + s.g), w32 (h0.h + s.h)⟩

/-- `hashlib.sha256(msg).digest()` as a list of 32 bytes. -/
def sha256 (msg : List Nat) : List Nat :=
  let hf := (chunksP 63 (padMessage msg)).foldl compress shaH0
  beBytes4 hf.a ++ beBytes4 hf.b ++ beBytes4 hf.c ++ beBytes4 hf.d ++
    beBytes4 hf.e ++ beBytes4 hf.f ++ beBytes4 hf.g ++ beBytes4 hf.h

/-- Lower-case hexadecimal digit for a value `< 16` (Python's `hexdigest`
renders lower-case hex). -/
def hexChar (d : Nat) : Char :=
  if d < 10 then Char.ofNat (48 + d) else Char.ofNat (87 + d)

/-- The two hex characters of one byte. -/
def byteHex (b : Nat) : List Char := [hexChar (b / 16), hexChar (b % 16)]

/-- `hashlib.sha256(...).hexdigest()` from the digest bytes. -/
def hexdigest (bytes : List Nat) : List Char :=
  bytes.foldr (fun b acc => byteHex b ++ acc) []

/-- Value of a hexadecimal character (the model covers the characters
`hexdigest` produces: `0`-`9` and lower-case `a`-`f`). -/
def hexVal (c : Char) : Nat := if c.isDigit then c.toNat - 48 else c.toNat - 87

/-- `int(s, 16)` on a hexadecimal string. -/
def int16 (s : List Char) : Nat := s.foldl (fun a c => 16 * a + hexVal c) 0

/-- UTF-8 encoding of one character (`str.encode("utf-8")`). -/
def utf8Char (c : Char) : List Nat :=
  let n := c.toNat
  if n < 128 then [n]
  else if n < 2048 then [192 + n / 64, 128 + n % 64]
  else if n < 65536 then [224 + n / 4096, 128 + n / 64 % 64, 128 + n % 64]
  else [240 + n / 262144, 128 + n / 4096 % 64, 128 + n / 64 % 64, 128 + n % 64]

/-- UTF-8 encoding of a string. -/
def utf8Encode (s : List Char) : List Nat :=
  s.foldr (fun c acc => utf8Char c ++ acc) []

/-- `Pseudonymizer._compute_seed`: build
`f"{self.salt}{value.lower()}{entity_type}"`, hash it with SHA-256, and parse
the first 16 hex digits of the hex digest as an unsigned integer. -/
def compute_seed (salt value entity_type : List Char) : Nat :=
  let data := salt ++ pyLower value ++ entity_type
  let hash_hex := hexdigest (sha256 (utf8Encode data))
  int16 (hash_hex.take 16)

/-- The specification's seed formula: the first 64 bits of the SHA-256
digest — its first 8 bytes big-endian — interpreted as an unsigned integer. -/
def firstBits64 (digest : List Nat) : Nat := beWord (digest.take 8)

/-!  ## Specification-side definitions used to state claims -/

/-- Forget a `Replacement` back to the detection fields it was created from. -/
def toDet (r : Replacement) : RecognizerResult :=
  ⟨r.start, r.stop, r.entity_type, r.score⟩

/-- The claim "replacements are ordered by ascending start offset". -/
def ascendingByStart (l : List Replacement) : Prop :=
  l.Pairwise fun a b => a.start ≤ b.start

instance : DecidableRel fun a b : Replacement => a.start ≤ b.start :=
  fun x y => inferInstanceAs (Decidable (x.start ≤ y.start))

instance (l : List Replacement) : Decidable (ascendingByStart l) :=
  inferInstanceAs (Decidable (l.Pairwise _))

/-- Two replacement spans `[start, stop)` are disjoint. -/
def disjointSpans (a b : Replacement) : Prop :=
  a.stop ≤ b.start ∨ b.stop ≤ a.start

instance : DecidableRel disjointSpans :=
  fun _ _ => inferInstanceAs (Decidable (_ ∨ _))

/-- Strict comparison of replacement starts (used to state that the two
rewrite presentations list the spans in the same unique order). -/
def startLT (a b : Replacement) : Prop := a.start < b.start

instance : IsAntisymm Replacement startLT :=
  ⟨fun _ _ h1 h2 => absurd (Nat.lt_trans h1 h2) (Nat.lt_irrefl _)⟩

/-- Ascending-start comparison (document order). -/
def startAsc (a b : Replacement) : Prop := a.start ≤ b.start

instance : DecidableRel startAsc :=
  fun x y => inferInstanceAs (Decidable (x.start ≤ y.start))

instance : IsTotal Replacement startAsc := ⟨fun a b => Nat.le_total a.start b.start⟩

instance : IsTrans Replacement startAsc := ⟨fun _ _ _ h1 h2 => Nat.le_trans h1 h2⟩

/-- Modelled from the spec: the rewrite described by REWRITE, "the original
text with each accepted span's substring replaced by its replacement text" —
for a list of replacements sorted ascending by `start`, emit the untouched
text between `pos` and the next span, then the replacement, then recurse
after the span; the tail after the last span is preserved. -/
def rewriteSpec (pos : Nat) (reps : List Replacement) (t : List Char) : List Char :=
  match reps with
  | [] => t.drop pos
  | r :: rest => (t.take r.start).drop pos ++ r.replacement ++ rewriteSpec r.stop rest t

/-!  ## Basic digit lemmas -/

theorem randint_le (lo hi s : Nat) (h : lo ≤ hi) : randint lo hi s ≤ hi := by
  unfold randint
  have h1 : s % (hi + 1 - lo) < hi + 1 - lo := Nat.mod_lt _ (by omega)
  omega

theorem randint_ge (lo hi s : Nat) : lo ≤ randint lo hi s := by
  unfold randint
  omega

theorem digitChar_isDigit {d : Nat} (h : d < 10) : (digitChar d).isDigit = true := by
  interval_cases d <;> decide

theorem pyIntOfChar_digitChar {d : Nat} (h : d < 10) :
    pyIntOfChar (digitChar d) = .ok d := by
  interval_cases d <;> rfl

theorem digitChar_not_space_hyphen {d : Nat} (h : d < 10) :
    (digitChar d == ' ' || digitChar d == '-') = false := by
  interval_cases d <;> decide

theorem pyCharIsDigit_digitChar {d : Nat} (h : d < 10) :
    pyCharIsDigit (digitChar d) = true := by
  interval_cases d <;> decide

theorem pyClean_map_digitChar (L : List Nat) (hb : ∀ x ∈ L, x < 10) :
    pyClean (L.map digitChar) = L.map digitChar := by
  unfold pyClean
  rw [List.filter_eq_self]
  intro c hc
  rw [List.mem_map] at hc
  obtain ⟨d, hd, rfl⟩ := hc
  simp [digitChar_not_space_hyphen (hb d hd)]

theorem pyStrIsDigit_map_digitChar (L : List Nat) (hb : ∀ x ∈ L, x < 10)
    (hne : L ≠ []) : pyStrIsDigit (L.map digitChar) = true := by
  have h1 : (L.map digitChar).isEmpty = false := by
    cases L with
    | nil => exact absurd rfl hne
    | cons a t => rfl
  rw [pyStrIsDigit, h1]
  simp only [Bool.not_false, Bool.true_and, List.all_eq_true]
  intro c hc
  rw [List.mem_map] at hc
  obtain ⟨d, hd, rfl⟩ := hc
  exact pyCharIsDigit_digitChar (hb d hd)

theorem pyDigitsVal_map_digitChar (L : List Nat) (hb : ∀ x ∈ L, x < 10) :
    pyDigitsVal (L.map digitChar) = .ok L := by
  induction L with
  | nil => rfl
  | cons d rest ih =>
    have hd : d < 10 := hb d (by simp)
    have hrest := ih fun x hx => hb x (by simp [hx])
    simp only [List.map_cons, pyDigitsVal, pyIntOfChar_digitChar hd, hrest]
    rfl

theorem wsum_append (W l1 l2 : List Nat) (h : W.length ≤ l1.length) :
    wsum W (l1 ++ l2) = wsum W l1 := by
  induction W generalizing l1 with
  | nil => simp [wsum]
  | cons w ws ih =>
    cases l1 with
    | nil => simp at h
    | cons a t =>
      simp only [wsum, List.cons_append, List.zipWith_cons_cons, List.sum_cons]
      have := ih t (by simpa using h)
      simp only [wsum] at this
      omega

theorem getD_append_len (l : List Nat) (c : Nat) : (l ++ [c]).getD l.length 0 = c := by
  induction l with
  | nil => rfl
  | cons a t ih => simp [ih]

/-!  ## Validators accept constructed identifiers -/

theorem except_bind_ok {e a b : Type} (x : a) (f : a → Except e b) :
    (Except.ok x : Except e a) >>= f = f x := rfl

theorem validate_pesel_digits (ds : List Nat) (h10 : ds.length = 10)
    (hb : ∀ x ∈ ds, x < 10) :
    validate_pesel ((ds ++ [(10 - wsum PESEL_WEIGHTS ds % 10) % 10]).map digitChar)
      = .ok true := by
  have hcb : (10 - wsum PESEL_WEIGHTS ds % 10) % 10 < 10 := Nat.mod_lt _ (by omega)
  have hL : ∀ x ∈ ds ++ [(10 - wsum PESEL_WEIGHTS ds % 10) % 10], x < 10 := by
    intro x hx
    rcases List.mem_append.mp hx with h | h
    · exact hb x h
    · simp at h; omega
  have hlen : (ds ++ [(10 - wsum PESEL_WEIGHTS ds % 10) % 10]).length = 11 := by
    simp [h10]
  simp only [validate_pesel]
  rw [pyClean_map_digitChar _ hL, pyStrIsDigit_map_digitChar _ hL (by simp),
    List.length_map, hlen, pyDigitsVal_map_digitChar _ hL]
  have hw : wsum PESEL_WEIGHTS (ds ++ [(10 - wsum PESEL_WEIGHTS ds % 10) % 10])
      = wsum PESEL_WEIGHTS ds := wsum_append _ _ _ (by rw [h10]; rfl)
  have hg : (ds ++ [(10 - wsum PESEL_WEIGHTS ds % 10) % 10]).getD 10 0
      = (10 - wsum PESEL_WEIGHTS ds % 10) % 10 := by
    have := getD_append_len ds ((10 - wsum PESEL_WEIGHTS ds % 10) % 10)
    rwa [h10] at this
  rw [except_bind_ok, hw, hg]
  simp

theorem validate_nip_digits (ds : List Nat) (h9 : ds.length = 9)
    (hb : ∀ x ∈ ds, x < 10) (hc : wsum NIP_WEIGHTS ds % 11 ≠ 10) :
    validate_nip ((ds ++ [wsum NIP_WEIGHTS ds % 11]).map digitChar) = .ok true := by
  have hcb : wsum NIP_WEIGHTS ds % 11 < 10 := by
    have : wsum NIP_WEIGHTS ds % 11 < 11 := Nat.mod_lt _ (by omega)
    omega
  have hL : ∀ x ∈ ds ++ [wsum NIP_WEIGHTS ds % 11], x < 10 := by
    intro x hx
    rcases List.mem_append.mp hx with h | h
    · exact hb x h
    · simp at h; omega
  have hlen : (ds ++ [wsum NIP_WEIGHTS ds % 11]).length = 10 := by simp [h9]
  simp only [validate_nip]
  rw [pyClean_map_digitChar _ hL, pyStrIsDigit_map_digitChar _ hL (by simp),
    List.length_map, hlen, pyDigitsVal_map_digitChar _ hL]
  have hw : wsum NIP_WEIGHTS (ds ++ [wsum NIP_WEIGHTS ds % 11]) = wsum NIP_WEIGHTS ds :=
    wsum_append _ _ _ (by rw [h9]; rfl)
  have hg : (ds ++ [wsum NIP_WEIGHTS ds % 11]).getD 9 0 = wsum NIP_WEIGHTS ds % 11 := by
    have := getD_append_len ds (wsum NIP_WEIGHTS ds % 11)
    rwa [h9] at this
  rw [except_bind_ok, hw, hg]
  simp [hc]

theorem validate_regon_digits9 (ds : List Nat) (h8 : ds.length = 8)
    (hb : ∀ x ∈ ds, x < 10) :
    validate_regon ((ds ++ [regonControl (wsum REGON_9_WEIGHTS ds)]).map digitChar)
      = .ok true := by
  have hcb : regonControl (wsum REGON_9_WEIGHTS ds) < 10 := by
    unfold regonControl
    have : wsum REGON_9_WEIGHTS ds % 11 < 11 := Nat.mod_lt _ (by omega)
    split <;> omega
  have hL : ∀ x ∈ ds ++ [regonControl (wsum REGON_9_WEIGHTS ds)], x < 10 := by
    intro x hx
    rcases List.mem_append.mp hx with h | h
    · exact hb x h
    · simp at h; omega
  have hlen : (ds ++ [regonControl (wsum REGON_9_WEIGHTS ds)]).length = 9 := by simp [h8]
  simp only [validate_regon]
  rw [pyClean_map_digitChar _ hL, pyStrIsDigit_map_digitChar _ hL (by simp),
    List.length_map, hlen, pyDigitsVal_map_digitChar _ hL]
  have hw : wsum REGON_9_WEIGHTS (ds ++ [regonControl (wsum REGON_9_WEIGHTS ds)])
      = wsum REGON_9_WEIGHTS ds := wsum_append _ _ _ (by rw [h8]; rfl)
  have hg : (ds ++ [regonControl (wsum REGON_9_WEIGHTS ds)]).getLast?
      = some (regonControl (wsum REGON_9_WEIGHTS ds)) := by
    simp
  rw [if_neg (by simp), if_pos (show (9:Nat) = 9 ∨ (9:Nat) = 14 from Or.inl rfl),
    if_pos (show (9:Nat) = 9 from rfl)]
  rw [except_bind_ok, hw, hg]
  simp

theorem validate_regon_digits14 (ds : List Nat) (h13 : ds.length = 13)
    (hb : ∀ x ∈ ds, x < 10) :
    validate_regon ((ds ++ [regonControl (wsum REGON_14_WEIGHTS ds)]).map digitChar)
      = .ok true := by
  have hcb : regonControl (wsum REGON_14_WEIGHTS ds) < 10 := by
    unfold regonControl
    have : wsum REGON_14_WEIGHTS ds % 11 < 11 := Nat.mod_lt _ (by omega)
    split <;> omega
  have hL : ∀ x ∈ ds ++ [regonControl (wsum REGON_14_WEIGHTS ds)], x < 10 := by
    intro x hx
    rcases List.mem_append.mp hx with h | h
    · exact hb x h
    · simp at h; omega
  have hlen : (ds ++ [regonControl (wsum REGON_14_WEIGHTS ds)]).length = 14 := by
    simp [h13]
  simp only [validate_regon]
  rw [pyClean_map_digitChar _ hL, pyStrIsDigit_map_digitChar _ hL (by simp),
    List.length_map, hlen, pyDigitsVal_map_digitChar _ hL]
  have hw : wsum REGON_14_WEIGHTS (ds ++ [regonControl (wsum REGON_14_WEIGHTS ds)])
      = wsum REGON_14_WEIGHTS ds := wsum_append _ _ _ (by rw [h13]; rfl)
  have hg : (ds ++ [regonControl (wsum REGON_14_WEIGHTS ds)]).getLast?
      = some (regonControl (wsum REGON_14_WEIGHTS ds)) := by
    simp
  rw [if_neg (by simp), if_pos (show (14:Nat) = 9 ∨ (14:Nat) = 14 from Or.inr rfl),
    if_neg (show ¬ (14:Nat) = 9 by omega)]
  rw [except_bind_ok, hw, hg]
  simp

/-!  ## Generator digit bounds -/

theorem wsum_cons (w a : Nat) (ws t : List Nat) :
    wsum (w :: ws) (a :: t) = w * a + wsum ws t := by
  simp [wsum]

theorem wsum_set (W l : List Nat) (i v : Nat) (hiW : i < W.length)
    (hil : i < l.length) :
    wsum W (l.set i v) + W.getD i 0 * l.getD i 0 = wsum W l + W.getD i 0 * v := by
  induction W generalizing l i with
  | nil => simp at hiW
  | cons w ws ih =>
    cases l with
    | nil => simp at hil
    | cons a t =>
      cases i with
      | zero =>
        simp only [List.set, wsum_cons, List.getD_cons_zero]
        ring
      | succ n =>
        simp only [List.set, wsum_cons, List.getD_cons_succ]
        have h := ih t n (by simpa using hiW) (by simpa using hil)
        rw [Nat.add_assoc, h, ← Nat.add_assoc]

theorem getD_le_nine (l : List Nat) (h : ∀ x ∈ l, x ≤ 9) (n : Nat) :
    l.getD n 0 ≤ 9 := by
  rcases h' : l[n]? with _ | a
  · simp [List.getD, h']
  · have hm : a ∈ l := List.getElem?_mem h'
    simp [List.getD, h']
    exact h a hm

theorem drawDigits_le (g : Nat → Nat) (n : Nat) : ∀ x ∈ drawDigits g n, x ≤ 9 := by
  intro x hx
  unfold drawDigits at hx
  rw [List.mem_map] at hx
  obtain ⟨i, _, rfl⟩ := hx
  exact randint_le 0 9 (g i) (by omega)

theorem drawDigits_length (g : Nat → Nat) (n : Nat) : (drawDigits g n).length = n := by
  simp [drawDigits]

theorem peselDigits_lt (g : Nat → Nat) : ∀ x ∈ peselDigits g, x < 10 := by
  intro x hx
  have hy := randint_le 50 99 (g 0) (by omega)
  have hm := randint_le 1 12 (g 1) (by omega)
  have hd := randint_le 1 28 (g 2) (by omega)
  have hs := randint_le 0 999 (g 3) (by omega)
  have hg := randint_le 0 9 (g 4) (by omega)
  simp only [peselDigits, List.mem_cons, List.mem_singleton] at hx
  rcases hx with rfl | rfl | rfl | rfl | rfl | rfl | rfl | rfl | rfl | rfl | h
  · omega
  · omega
  · omega
  · omega
  · omega
  · omega
  · omega
  · omega
  · omega
  · omega
  · simp at h

theorem peselDigits_length (g : Nat → Nat) : (peselDigits g).length = 10 := rfl

/-!  ## The NIP repair step -/

theorem nip_repair_ne_ten (d : List Nat) (h9 : d.length = 9) (hb : d.getD 8 0 ≤ 9)
    (h10 : wsum NIP_WEIGHTS d % 11 = 10) :
    wsum NIP_WEIGHTS (d.set 8 ((d.getD 8 0 + 1) % 10)) % 11 ≠ 10 := by
  have h := wsum_set NIP_WEIGHTS d 8 ((d.getD 8 0 + 1) % 10)
    (by simp [NIP_WEIGHTS]) (by omega)
  have hW : NIP_WEIGHTS.getD 8 0 = 7 := rfl
  rw [hW] at h
  omega

theorem nipDigits_length (g : Nat → Nat) : (nipDigits g).length = 9 := by
  unfold nipDigits nipRepairedDigits
  split
  · rw [List.length_set, drawDigits_length]
  · rw [drawDigits_length]

theorem nipDigits_le (g : Nat → Nat) : ∀ x ∈ nipDigits g, x ≤ 9 := by
  intro x hx
  unfold nipDigits nipRepairedDigits at hx
  split at hx
  · rcases List.mem_or_eq_of_mem_set hx with h | h
    · exact drawDigits_le g 9 x h
    · subst h
      have : ((drawDigits g 9).getD 8 0 + 1) % 10 < 10 := Nat.mod_lt _ (by omega)
      omega
  · exact drawDigits_le g 9 x hx

theorem nipControl_ne_ten (g : Nat → Nat) :
    wsum NIP_WEIGHTS (nipDigits g) % 11 ≠ 10 := by
  unfold nipDigits nipRepairedDigits
  split
  · apply nip_repair_ne_ten _ (drawDigits_length g 9)
      (getD_le_nine _ (drawDigits_le g 9) 8)
    assumption
  · assumption

theorem nipControl_eq (g : Nat → Nat) :
    nipControl g = wsum NIP_WEIGHTS (nipDigits g) % 11 := by
  unfold nipControl
  split
  · rw [if_neg (nipControl_ne_ten g)]
  · rename_i h
    unfold nipDigits nipRepairedDigits
    rw [if_neg h]

/-!  ## The hyphen-grouped NIP rendering cleans back to the bare digits -/

theorem pyClean_format_ten (s : List Char) (hclean : pyClean s = s)
    (h10 : s.length = 10) :
    pyClean (s.take 3 ++ ['-'] ++ (s.drop 3).take 3 ++ ['-'] ++
      (s.drop 6).take 2 ++ ['-'] ++ (s.drop 8).take 2) = s := by
  have hall : ∀ c ∈ s, (!(c == ' ' || c == '-')) = true := by
    intro c hc
    unfold pyClean at hclean
    exact List.filter_eq_self.mp hclean c hc
  have hseg : ∀ l : List Char, l ⊆ s →
      (l.filter fun c => !(c == ' ' || c == '-')) = l := by
    intro l hl
    exact List.filter_eq_self.mpr fun c hc => hall c (hl hc)
  have hh : ((['-'] : List Char).filter fun c => !(c == ' ' || c == '-')) = [] := rfl
  unfold pyClean
  simp only [List.filter_append, hh,
    hseg (s.take 3) (s.take_subset 3),
    hseg ((s.drop 3).take 3) (((s.drop 3).take_subset 3).trans (s.drop_subset 3)),
    hseg ((s.drop 6).take 2) (((s.drop 6).take_subset 2).trans (s.drop_subset 6)),
    hseg ((s.drop 8).take 2) (((s.drop 8).take_subset 2).trans (s.drop_subset 8)),
    List.append_nil, List.nil_append, List.append_assoc]
  have t3 : (s.drop 6).take 2 ++ (s.drop 8).take 2 = (s.drop 6).take 4 := by
    rw [show (4 : Nat) = 2 + 2 from rfl, List.take_add, List.drop_drop]
  have t2 : (s.drop 3).take 3 ++ (s.drop 6).take 4 = (s.drop 3).take 7 := by
    rw [show (7 : Nat) = 3 + 4 from rfl, List.take_add, List.drop_drop]
  have t1 : s.take 3 ++ (s.drop 3).take 7 = s.take 10 := by
    rw [show (10 : Nat) = 3 + 7 from rfl, List.take_add]
  calc s.take 3 ++ ((s.drop 3).take 3 ++ ((s.drop 6).take 2 ++ (s.drop 8).take 2))
      = s.take 3 ++ ((s.drop 3).take 3 ++ (s.drop 6).take 4) := by rw [t3]
    _ = s.take 3 ++ (s.drop 3).take 7 := by rw [t2]
    _ = s.take 10 := t1
    _ = s := by rw [← h10, List.take_length]

theorem validate_nip_congr (x y : List Char) (h : pyClean x = pyClean y) :
    validate_nip x = validate_nip y := by
  unfold validate_nip
  rw [h]

/-!  ## Generated identifiers validate -/

theorem nipControl_lt (g : Nat → Nat) : nipControl g < 10 := by
  rw [nipControl_eq]
  have h1 := nipControl_ne_ten g
  have h2 : wsum NIP_WEIGHTS (nipDigits g) % 11 < 11 := Nat.mod_lt _ (by omega)
  omega

theorem nipFull_lt (g : Nat → Nat) : ∀ x ∈ nipDigits g ++ [nipControl g], x < 10 := by
  intro x hx
  rcases List.mem_append.mp hx with h | h
  · have := nipDigits_le g x h
    omega
  · simp at h
    subst h
    exact nipControl_lt g

theorem validate_generate_nip_bare (g : Nat → Nat) :
    validate_nip (generate_nip g false) = .ok true := by
  have h : generate_nip g false = (nipDigits g ++ [nipControl g]).map digitChar := rfl
  rw [h, nipControl_eq g]
  exact validate_nip_digits _ (nipDigits_length g)
    (fun x hx => by have := nipDigits_le g x hx; omega) (nipControl_ne_ten g)

theorem validate_generate_nip_formatted (g : Nat → Nat) :
    validate_nip (generate_nip g true) = .ok true := by
  have hb := nipFull_lt g
  have hclean : pyClean ((nipDigits g ++ [nipControl g]).map digitChar)
      = (nipDigits g ++ [nipControl g]).map digitChar := pyClean_map_digitChar _ hb
  have hlen : ((nipDigits g ++ [nipControl g]).map digitChar).length = 10 := by
    simp [nipDigits_length]
  have hcongr : pyClean (generate_nip g true)
      = pyClean (generate_nip g false) := by
    have h1 : generate_nip g true =
        ((nipDigits g ++ [nipControl g]).map digitChar).take 3 ++ ['-'] ++
        (((nipDigits g ++ [nipControl g]).map digitChar).drop 3).take 3 ++ ['-'] ++
        (((nipDigits g ++ [nipControl g]).map digitChar).drop 6).take 2 ++ ['-'] ++
        (((nipDigits g ++ [nipControl g]).map digitChar).drop 8).take 2 := rfl
    have h2 : generate_nip g false = (nipDigits g ++ [nipControl g]).map digitChar := rfl
    rw [h1, h2, pyClean_format_ten _ hclean hlen, hclean]
  rw [validate_nip_congr _ _ hcongr]
  exact validate_generate_nip_bare g

theorem generate_regon_nine (g : Nat → Nat) :
    generate_regon g 9 =
      .ok ((drawDigits g 8 ++
        [regonControl (wsum REGON_9_WEIGHTS (drawDigits g 8))]).map digitChar) := rfl

theorem generate_regon_fourteen (g : Nat → Nat) :
    generate_regon g 14 =
      .ok ((drawDigits g 13 ++
        [regonControl (wsum REGON_14_WEIGHTS (drawDigits g 13))]).map digitChar) := rfl

/-- C1: for every seed (entropy stream), every generated identifier passes
its family's validator: PESEL, NIP in both the hyphen-grouped and the bare
rendering, and REGON for both length 9 and length 14. -/
theorem C1_generate_validates (g : Nat → Nat) :
    validate_pesel (generate_pesel g) = .ok true
  ∧ validate_nip (generate_nip g true) = .ok true
  ∧ validate_nip (generate_nip g false) = .ok true
  ∧ (∀ r, generate_regon g 9 = .ok r → validate_regon r = .ok true)
  ∧ (∀ r, generate_regon g 14 = .ok r → validate_regon r = .ok true) := by
  refine ⟨?_, ?_, ?_, ?_, ?_⟩
  · exact validate_pesel_digits _ (peselDigits_length g) (peselDigits_lt g)
  · exact validate_generate_nip_formatted g
  · exact validate_generate_nip_bare g
  · intro r hr
    rw [generate_regon_nine] at hr
    injection hr with h
    subst h
    exact validate_regon_digits9 _ (drawDigits_length g 8)
      (fun x hx => by have := drawDigits_le g 8 x hx; omega)
  · intro r hr
    rw [generate_regon_fourteen] at hr
    injection hr with h
    subst h
    exact validate_regon_digits14 _ (drawDigits_length g 13)
      (fun x hx => by have := drawDigits_le g 13 x hx; omega)

/-- Witness for C1 at the concrete all-zero entropy stream, discharging the
REGON hypotheses at the concretely generated strings. -/
theorem C1_generate_validates_witness :
    validate_pesel (generate_pesel fun _ => 0) = .ok true
  ∧ validate_regon ['0', '0', '0', '0', '0', '0', '0', '0', '0'] = .ok true
  ∧ validate_regon ['0', '0', '0', '0', '0', '0', '0', '0', '0', '0', '0', '0', '0', '0']
      = .ok true :=
  ⟨(C1_generate_validates fun _ => 0).1,
   (C1_generate_validates fun _ => 0).2.2.2.1 _ rfl,
   (C1_generate_validates fun _ => 0).2.2.2.2 _ rfl⟩

/-- C7: the claim says the validators never raise; the code refutes it.
On the 11-character input consisting of Unicode superscript-two characters,
the length and `isdigit` guards both pass (Python's `str.isdigit` accepts
superscript digits), and then `int(...)` raises `ValueError`, so
`validate_pesel` raises instead of returning a boolean; likewise for the
other two validators at their expected lengths.  The false-on-malformed half
of the claim is not at issue here: this input IS all-digit of the expected
length in Python's `isdigit` sense, yet the call still does not return. -/
theorem C7_validators_raise_on_superscript :
    validate_pesel (List.replicate 11 '²') = .error ()
  ∧ validate_nip (List.replicate 10 '²') = .error ()
  ∧ validate_regon (List.replicate 9 '²') = .error () :=
  ⟨rfl, rfl, rfl⟩

/-- C8: `generate_regon` raises `ValueError` exactly when the requested
length is neither 9 nor 14; for lengths 9 and 14 it returns that many digit
characters whose last digit is the control computed with the
length-appropriate weight vector over the first `length - 1` digits, a
control value of 10 mapped to 0. -/
theorem C8_generate_regon_contract :
    (∀ (g : Nat → Nat) (length : Int),
        (∃ e, generate_regon g length = .error e) ↔ length ≠ 9 ∧ length ≠ 14)
  ∧ (∀ (g : Nat → Nat) (r : List Char), generate_regon g 9 = .ok r →
        r.length = 9 ∧ ∃ ds, pyDigitsVal r = .ok ds ∧ ds.length = 9 ∧
          ds.getLast? = some (regonControl (wsum REGON_9_WEIGHTS (ds.take 8))))
  ∧ (∀ (g : Nat → Nat) (r : List Char), generate_regon g 14 = .ok r →
        r.length = 14 ∧ ∃ ds, pyDigitsVal r = .ok ds ∧ ds.length = 14 ∧
          ds.getLast? = some (regonControl (wsum REGON_14_WEIGHTS (ds.take 13)))) := by
  refine ⟨?_, ?_, ?_⟩
  · intro g length
    constructor
    · rintro ⟨e, he⟩
      unfold generate_regon at he
      by_cases h : length = 9 ∨ length = 14
      · rw [if_pos h] at he
        simp at he
      · exact ⟨fun h9 => h (Or.inl h9), fun h14 => h (Or.inr h14)⟩
    · rintro ⟨h9, h14⟩
      unfold generate_regon
      rw [if_neg (by tauto)]
      exact ⟨_, rfl⟩
  · intro g r hr
    rw [generate_regon_nine] at hr
    injection hr with h
    subst h
    have hb : ∀ x ∈ drawDigits g 8 ++
        [regonControl (wsum REGON_9_WEIGHTS (drawDigits g 8))], x < 10 := by
      intro x hx
      rcases List.mem_append.mp hx with h | h
      · have := drawDigits_le g 8 x h
        omega
      · simp at h
        subst h
        unfold regonControl
        have : wsum REGON_9_WEIGHTS (drawDigits g 8) % 11 < 11 := Nat.mod_lt _ (by omega)
        split <;> omega
    refine ⟨by simp [drawDigits_length], _, pyDigitsVal_map_digitChar _ hb, ?_, ?_⟩
    · simp [drawDigits_length]
    · have ht : (drawDigits g 8 ++
          [regonControl (wsum REGON_9_WEIGHTS (drawDigits g 8))]).take 8
          = drawDigits g 8 := by
        have := List.take_left (drawDigits g 8)
          [regonControl (wsum REGON_9_WEIGHTS (drawDigits g 8))]
        rwa [drawDigits_length] at this
      rw [ht]
      simp
  · intro g r hr
    rw [generate_regon_fourteen] at hr
    injection hr with h
    subst h
    have hb : ∀ x ∈ drawDigits g 13 ++
        [regonControl (wsum REGON_14_WEIGHTS (drawDigits g 13))], x < 10 := by
      intro x hx
      rcases List.mem_append.mp hx with h | h
      · have := drawDigits_le g 13 x h
        omega
      · simp at h
        subst h
        unfold regonControl
        have : wsum REGON_14_WEIGHTS (drawDigits g 13) % 11 < 11 := Nat.mod_lt _ (by omega)
        split <;> omega
    refine ⟨by simp [drawDigits_length], _, pyDigitsVal_map_digitChar _ hb, ?_, ?_⟩
    · simp [drawDigits_length]
    · have ht : (drawDigits g 13 ++
          [regonControl (wsum REGON_14_WEIGHTS (drawDigits g 13))]).take 13
          = drawDigits g 13 := by
        have := List.take_left (drawDigits g 13)
          [regonControl (wsum REGON_14_WEIGHTS (drawDigits g 13))]
        rwa [drawDigits_length] at this
      rw [ht]
      simp

/-- Witness for C8 at concrete inputs: length 10 is rejected with an error,
and the length-9 generation at the all-zero stream satisfies the digit
contract. -/
theorem C8_generate_regon_contract_witness :
    (∃ e, generate_regon (fun _ => 0) 10 = .error e)
  ∧ ((['0', '0', '0', '0', '0', '0', '0', '0', '0'] : List Char).length = 9 ∧
      ∃ ds, pyDigitsVal ['0', '0', '0', '0', '0', '0', '0', '0', '0'] = .ok ds ∧
        ds.length = 9 ∧
        ds.getLast? = some (regonControl (wsum REGON_9_WEIGHTS (ds.take 8)))) :=
  ⟨(C8_generate_regon_contract.1 (fun _ => 0) 10).mpr ⟨by decide, by decide⟩,
   C8_generate_regon_contract.2.1 (fun _ => 0) _ rfl⟩

/-- C10: one NIP repair step always suffices.  On any nine digits whose
weighted control is 10, bumping the 9th digit by 1 modulo 10 yields a control
different from 10 (the checksum changes by +7 or −63, neither divisible by
11), so the branch forcing the control digit to 0 is unreachable: the
rendered control always equals the weighted checksum of the rendered nine
digits modulo 11, and in particular the last digit of every generated bare
NIP equals the recomputed weighted checksum modulo 11 of its first nine
digits. -/
theorem C10_nip_repair :
    (∀ d : List Nat, d.length = 9 → d.getD 8 0 ≤ 9 →
        wsum NIP_WEIGHTS d % 11 = 10 →
        wsum NIP_WEIGHTS (d.set 8 ((d.getD 8 0 + 1) % 10)) % 11 ≠ 10)
  ∧ (∀ g : Nat → Nat, nipControl g = wsum NIP_WEIGHTS (nipDigits g) % 11 ∧
        wsum NIP_WEIGHTS (nipDigits g) % 11 ≠ 10)
  ∧ (∀ g : Nat → Nat, ∃ ds, pyDigitsVal (generate_nip g false) = .ok ds ∧
        ds.getLast? = some (wsum NIP_WEIGHTS (ds.take 9) % 11)) := by
  refine ⟨nip_repair_ne_ten, fun g => ⟨nipControl_eq g, nipControl_ne_ten g⟩, ?_⟩
  intro g
  have h : generate_nip g false = (nipDigits g ++ [nipControl g]).map digitChar := rfl
  refine ⟨nipDigits g ++ [nipControl g], ?_, ?_⟩
  · rw [h]
    exact pyDigitsVal_map_digitChar _ (nipFull_lt g)
  · have ht : (nipDigits g ++ [nipControl g]).take 9 = nipDigits g := by
      have := List.take_left (nipDigits g) [nipControl g]
      rwa [nipDigits_length] at this
    rw [ht, ← nipControl_eq g]
    simp

/-- Witness for C10 at the concrete digit vector `[0,0,0,0,0,0,0,0,3]`,
whose raw control is `21 % 11 = 10`: the repaired control differs from 10,
and the all-zero stream's bare NIP satisfies the last-digit equation. -/
theorem C10_nip_repair_witness :
    wsum NIP_WEIGHTS (([0, 0, 0, 0, 0, 0, 0, 0, 3] : List Nat).set 8
      ((([0, 0, 0, 0, 0, 0, 0, 0, 3] : List Nat).getD 8 0 + 1) % 10)) % 11 ≠ 10
  ∧ ∃ ds, pyDigitsVal (generate_nip (fun _ => 0) false) = .ok ds ∧
      ds.getLast? = some (wsum NIP_WEIGHTS (ds.take 9) % 11) :=
  ⟨C10_nip_repair.1 [0, 0, 0, 0, 0, 0, 0, 0, 3] rfl (by decide) rfl,
   C10_nip_repair.2.2 fun _ => 0⟩

/-!  ## The seed function -/

theorem beBytes4_lt (n : Nat) : ∀ b ∈ beBytes4 n, b < 256 := by
  intro b hb
  simp only [beBytes4, List.mem_cons, List.not_mem_nil, or_false] at hb
  rcases hb with rfl | rfl | rfl | rfl <;> exact Nat.mod_lt _ (by omega)

theorem sha256_bytes_lt (msg : List Nat) : ∀ b ∈ sha256 msg, b < 256 := by
  intro b hb
  simp only [sha256, List.mem_append] at hb
  rcases hb with ((((((h | h) | h) | h) | h) | h) | h) | h <;> exact beBytes4_lt _ b h

theorem hexdigest_cons (b : Nat) (rest : List Nat) :
    hexdigest (b :: rest) = hexChar (b / 16) :: hexChar (b % 16) :: hexdigest rest := rfl

theorem hexdigest_take (d : List Nat) (n : Nat) :
    (hexdigest d).take (2 * n) = hexdigest (d.take n) := by
  induction d generalizing n with
  | nil => simp [hexdigest]
  | cons b rest ih =>
    cases n with
    | zero => simp [hexdigest]
    | succ m =>
      rw [hexdigest_cons, show 2 * (m + 1) = 2 * m + 1 + 1 from by ring,
        List.take_succ_cons, List.take_succ_cons, ih m,
        show (b :: rest).take (m + 1) = b :: rest.take m from rfl, hexdigest_cons]

theorem hexVal_hexChar {d : Nat} (h : d < 16) : hexVal (hexChar d) = d := by
  interval_cases d <;> decide

theorem int16_hexdigest_aux (d : List Nat) :
    (∀ b ∈ d, b < 256) → ∀ a : Nat,
    (hexdigest d).foldl (fun x c => 16 * x + hexVal c) a
      = d.foldl (fun x b => 256 * x + b) a := by
  induction d with
  | nil => intro _ a; rfl
  | cons b rest ih =>
    intro hb a
    have hb0 : b < 256 := hb b (by simp)
    rw [hexdigest_cons]
    simp only [List.foldl_cons]
    rw [hexVal_hexChar (show b / 16 < 16 by omega),
      hexVal_hexChar (show b % 16 < 16 by omega),
      ih (fun x hx => hb x (List.mem_cons_of_mem _ hx))]
    congr 1
    omega

/-- C9: the seed function is pure and deterministic, and it equals the first
16 hexadecimal digits — the first 64 bits, i.e. the first 8 bytes big-endian
— of the SHA-256 digest of `salt ++ lowercase(value) ++ entityType`,
interpreted as an unsigned integer. -/
theorem C9_compute_seed_pure_and_first64 :
    (∀ salt v t salt2 v2 t2 : List Char, salt = salt2 → v = v2 → t = t2 →
        compute_seed salt v t = compute_seed salt2 v2 t2)
  ∧ ∀ salt v t : List Char, compute_seed salt v t
      = firstBits64 (sha256 (utf8Encode (salt ++ pyLower v ++ t))) := by
  refine ⟨?_, ?_⟩
  · intro salt v t salt2 v2 t2 h1 h2 h3
    subst h1
    subst h2
    subst h3
    rfl
  · intro salt v t
    have hb : ∀ b ∈ sha256 (utf8Encode (salt ++ pyLower v ++ t)), b < 256 :=
      sha256_bytes_lt _
    have h16 : (hexdigest (sha256 (utf8Encode (salt ++ pyLower v ++ t)))).take 16
        = hexdigest ((sha256 (utf8Encode (salt ++ pyLower v ++ t))).take 8) := by
      have h := hexdigest_take (sha256 (utf8Encode (salt ++ pyLower v ++ t))) 8
      rwa [show 2 * 8 = 16 from rfl] at h
    show int16 ((hexdigest (sha256 (utf8Encode (salt ++ pyLower v ++ t)))).take 16)
      = firstBits64 (sha256 (utf8Encode (salt ++ pyLower v ++ t)))
    rw [h16]
    exact int16_hexdigest_aux _ (fun x hx => hb x (List.take_subset _ _ hx)) 0

/-- Witness for C9: the purity and the first-64-bits equation instantiated at
the concrete empty salt, value and entity type. -/
theorem C9_compute_seed_witness :
    compute_seed [] [] [] = compute_seed [] [] []
  ∧ compute_seed [] [] []
      = firstBits64 (sha256 (utf8Encode ([] ++ pyLower [] ++ []))) :=
  ⟨C9_compute_seed_pure_and_first64.1 [] [] [] [] [] [] rfl rfl rfl,
   C9_compute_seed_pure_and_first64.2 [] [] []⟩

/-!  ## Overlap resolver invariants -/

theorem overlapsB_comm (a b : RecognizerResult) : overlapsB a b = overlapsB b a := by
  simp [overlapsB, Bool.or_comm]

theorem mem_foldl_filterStep_of_mem (l : List RecognizerResult) :
    ∀ acc x, x ∈ acc → x ∈ l.foldl filterStep acc := by
  induction l with
  | nil => intro acc x hx; exact hx
  | cons r rest ih =>
    intro acc x hx
    simp only [List.foldl_cons]
    apply ih
    unfold filterStep
    split
    · exact hx
    · exact List.mem_append_left _ hx

theorem mem_of_mem_foldl_filterStep (l : List RecognizerResult) :
    ∀ acc x, x ∈ l.foldl filterStep acc → x ∈ acc ∨ x ∈ l := by
  induction l with
  | nil => intro acc x hx; exact Or.inl hx
  | cons r rest ih =>
    intro acc x hx
    simp only [List.foldl_cons] at hx
    rcases ih _ x hx with h | h
    · unfold filterStep at h
      split at h
      · exact Or.inl h
      · rcases List.mem_append.mp h with h1 | h1
        · exact Or.inl h1
        · simp only [List.mem_singleton] at h1
          subst h1
          exact Or.inr (by simp)
    · exact Or.inr (List.mem_cons_of_mem _ h)

theorem pairwise_foldl_filterStep (l : List RecognizerResult) :
    ∀ acc, acc.Pairwise (fun a b => overlapsB a b = false) →
    (l.foldl filterStep acc).Pairwise (fun a b => overlapsB a b = false) := by
  induction l with
  | nil => intro acc h; exact h
  | cons r rest ih =>
    intro acc h
    simp only [List.foldl_cons]
    apply ih
    by_cases hno : (acc.any fun a => overlapsB r a) = true
    · rw [show filterStep acc r = acc from if_pos hno]
      exact h
    · rw [show filterStep acc r = acc ++ [r] from if_neg hno]
      rw [List.pairwise_append]
      refine ⟨h, List.pairwise_singleton _ _, ?_⟩
      intro a ha y hy
      simp only [List.mem_singleton] at hy
      rw [hy, overlapsB_comm]
      rcases h' : overlapsB r a with _ | _
      · rfl
      · exact absurd (List.any_eq_true.mpr ⟨a, ha, h'⟩) hno

theorem reject_overlap_aux (l : List RecognizerResult) :
    ∀ acc, l.Pairwise scoreDesc →
    (∀ a ∈ acc, ∀ r ∈ l, r.score ≤ a.score) →
    ∀ d ∈ l, d ∉ l.foldl filterStep acc →
    ∃ a ∈ l.foldl filterStep acc, overlapsB d a = true ∧ d.score ≤ a.score := by
  induction l with
  | nil =>
    intro acc _ _ d hd
    simp at hd
  | cons r rest ih =>
    intro acc hsort hacc d hd hnot
    simp only [List.foldl_cons] at hnot ⊢
    rcases List.mem_cons.mp hd with rfl | hd2
    · by_cases hov : (acc.any fun a => overlapsB d a) = true
      · obtain ⟨a, ha, hova⟩ := List.any_eq_true.mp hov
        refine ⟨a, ?_, hova, hacc a ha d (by simp)⟩
        apply mem_foldl_filterStep_of_mem
        rw [show filterStep acc d = acc from if_pos hov]
        exact ha
      · exfalso
        apply hnot
        apply mem_foldl_filterStep_of_mem
        rw [show filterStep acc d = acc ++ [d] from if_neg hov]
        simp
    · apply ih (filterStep acc r) (List.pairwise_cons.mp hsort).2 ?_ d hd2 hnot
      intro a ha x hx
      unfold filterStep at ha
      split at ha
      · exact hacc a ha x (List.mem_cons_of_mem _ hx)
      · rcases List.mem_append.mp ha with h1 | h1
        · exact hacc a h1 x (List.mem_cons_of_mem _ hx)
        · simp only [List.mem_singleton] at h1
          subst h1
          exact le_trans ((List.pairwise_cons.mp hsort).1 x hx) le_rfl

/-- C4: the overlap resolver returns a subset of its input whose
`[start, stop)` intervals are pairwise disjoint, and a detection is excluded
only when its interval intersects the interval of some accepted detection of
score greater than or equal to its own (detections being considered in
descending score order). -/
theorem C4_filter_overlapping (results : List RecognizerResult) :
    (filter_overlapping results).Pairwise (fun a b => overlapsB a b = false)
  ∧ (∀ x ∈ filter_overlapping results, x ∈ results)
  ∧ ∀ d ∈ results, d ∉ filter_overlapping results →
      ∃ a ∈ filter_overlapping results, overlapsB d a = true ∧ d.score ≤ a.score := by
  have hperm := List.perm_insertionSort scoreDesc results
  have hsort : (List.insertionSort scoreDesc results).Pairwise scoreDesc :=
    List.sorted_insertionSort scoreDesc results
  refine ⟨?_, ?_, ?_⟩
  · exact pairwise_foldl_filterStep _ [] List.Pairwise.nil
  · intro x hx
    rcases mem_of_mem_foldl_filterStep _ [] x hx with h | h
    · simp at h
    · exact hperm.mem_iff.mp h
  · intro d hd hnot
    exact reject_overlap_aux _ [] hsort (by simp) d (hperm.mem_iff.mpr hd) hnot

/-- Witness for C4: with a score-1/2 detection overlapping a score-1
detection, the former is excluded and the accepted overlapping detection has
the higher score. -/
theorem C4_filter_overlapping_witness :
    ∃ a ∈ filter_overlapping
        [⟨0, 5, "PERSON", 1⟩, ⟨3, 8, "PERSON", 2⟩],
      overlapsB ⟨0, 5, "PERSON", 1⟩ a = true ∧
        (⟨0, 5, "PERSON", 1⟩ : RecognizerResult).score ≤ a.score :=
  (C4_filter_overlapping [⟨0, 5, "PERSON", 1⟩, ⟨3, 8, "PERSON", 2⟩]).2.2
    ⟨0, 5, "PERSON", 1⟩ (by decide) (by decide)

/-!  ## Replacement cache invariants -/

theorem lookupA_prepMap (gen : List Char → String → List Char)
    (m : List (PKey × List Char)) (original : List Char) (et : String) :
    lookupA (prepMap gen m original et) (normKey original et)
      = some (prepVal gen m original et) := by
  unfold prepMap
  rcases hl : lookupA m (normKey original et) with _ | w
  · simp [lookupA]
  · rw [hl]
    unfold prepVal
    rw [hl]

theorem lookupA_prepMap_preserved (gen : List Char → String → List Char)
    (m : List (PKey × List Char)) (original : List Char) (et : String)
    (k : PKey) (v : List Char) (h : lookupA m k = some v) :
    lookupA (prepMap gen m original et) k = some v := by
  unfold prepMap
  rcases hl : lookupA m (normKey original et) with _ | w
  · unfold lookupA
    split
    · rename_i heq
      rw [heq] at hl
      simp [h] at hl
    · exact h
  · exact h

theorem prep_snd_preserves (gen : List Char → String → List Char)
    (text : List Char) :
    ∀ (l : List RecognizerResult) (m : List (PKey × List Char)) (k : PKey)
      (v : List Char), lookupA m k = some v →
      lookupA (prep gen text l m).2 k = some v := by
  intro l
  induction l with
  | nil => intro m k v h; exact h
  | cons r rest ih =>
    intro m k v h
    simp only [prep]
    exact ih _ k v (lookupA_prepMap_preserved _ _ _ _ _ _ h)

theorem prep_mem_lookup (gen : List Char → String → List Char)
    (text : List Char) :
    ∀ (l : List RecognizerResult) (m : List (PKey × List Char)),
    ∀ rep ∈ (prep gen text l m).1,
      lookupA (prep gen text l m).2 (normKey rep.original rep.entity_type)
        = some rep.replacement := by
  intro l
  induction l with
  | nil =>
    intro m rep h
    simp [prep] at h
  | cons r rest ih =>
    intro m rep hrep
    simp only [prep, List.mem_cons] at hrep
    simp only [prep]
    rcases hrep with rfl | h2
    · exact prep_snd_preserves gen text rest _ _ _ (lookupA_prepMap gen m _ _)
    · exact ih _ rep h2

/-- C3: within a single call, any two accepted detections whose normalized
keys (trimmed-and-lowercased original substring, entity type) are equal
receive the exact same replacement text in their `Replacement` records —
for every black-box generator, raw detection list, and input text. -/
theorem C3_same_key_same_replacement (gen : List Char → String → List Char)
    (raw : List RecognizerResult) (text : List Char) :
    ∀ r1 ∈ (pseudonymize_with_details gen raw text).replacements,
    ∀ r2 ∈ (pseudonymize_with_details gen raw text).replacements,
      normKey r1.original r1.entity_type = normKey r2.original r2.entity_type →
      r1.replacement = r2.replacement := by
  intro r1 h1 r2 h2 hk
  have e1 := prep_mem_lookup gen text (filter_overlapping raw) [] r1 h1
  have e2 := prep_mem_lookup gen text (filter_overlapping raw) [] r2 h2
  rw [hk] at e1
  rw [e1] at e2
  exact Option.some.inj e2

/-- Witness for C3: in the text `"abc abc"` with two same-key detections of
entity type `"X"`, the two concrete replacement records the call produces
share one replacement text. -/
theorem C3_same_key_same_replacement_witness :
    (⟨0, 3, "abc".toList, "abc".toList, "X", 2⟩ : Replacement).replacement
      = (⟨4, 7, "abc".toList, "abc".toList, "X", 1⟩ : Replacement).replacement :=
  C3_same_key_same_replacement (fun o _ => o) [⟨0, 3, "X", 2⟩, ⟨4, 7, "X", 1⟩]
    "abc abc".toList
    ⟨0, 3, "abc".toList, "abc".toList, "X", 2⟩ (by decide)
    ⟨4, 7, "abc".toList, "abc".toList, "X", 1⟩ (by decide) (by decide)

/-!  ## Replacement emission order -/

theorem prep_fst_map_toDet (gen : List Char → String → List Char)
    (text : List Char) :
    ∀ (l : List RecognizerResult) (m : List (PKey × List Char)),
    (prep gen text l m).1.map toDet = l := by
  intro l
  induction l with
  | nil => intro m; rfl
  | cons r rest ih =>
    intro m
    simp only [prep, List.map_cons, ih]
    rfl

/-- C2 counterexample: when the detector reports a low-score span before a
high-score span further right (both accepted), the emitted replacements are
in descending-score acceptance order `[start 10, start 0]`, not ascending by
start — refuting the claim at this concrete input. -/
theorem C2_not_ascending_by_start :
    ¬ ascendingByStart (pseudonymize_with_details (fun o _ => o)
      [⟨0, 2, "X", 1⟩, ⟨10, 12, "X", 2⟩] "abcdefghijkl".toList).replacements := by
  decide

/-- C2 (amended): the replacements sequence of the result is in the overlap
resolver's acceptance order (descending score, ties in input order) — its
projection to detections is exactly `filter_overlapping raw` — and is
therefore not in general ascending by start. -/
theorem C2_acceptance_order (gen : List Char → String → List Char)
    (raw : List RecognizerResult) (text : List Char) :
    (pseudonymize_with_details gen raw text).replacements.map toDet
      = filter_overlapping raw :=
  prep_fst_map_toDet gen text (filter_overlapping raw) []

/-!  ## Right-to-left splicing -/

theorem foldr_splice_sorted (t : List Char) :
    ∀ (l : List Replacement) (pos : Nat),
    l.Pairwise (fun a b => a.stop ≤ b.start) →
    (∀ r ∈ l, pos ≤ r.start) →
    (∀ r ∈ l, r.start < r.stop) →
    (∀ r ∈ l, r.stop ≤ t.length) →
    l.foldr (fun r u => splice u r.start r.stop r.replacement) t
      = t.take pos ++ rewriteSpec pos l t := by
  intro l
  induction l with
  | nil =>
    intro pos _ _ _ _
    simp [rewriteSpec]
  | cons r rest ih =>
    intro pos hsort hpos hlt hb
    have hps := List.pairwise_cons.mp hsort
    have hu := ih r.stop hps.2 (fun x hx => hps.1 x hx)
      (fun x hx => hlt x (List.mem_cons_of_mem _ hx))
      (fun x hx => hb x (List.mem_cons_of_mem _ hx))
    simp only [List.foldr_cons]
    rw [hu]
    have hr : r ∈ r :: rest := by simp
    have h1 : r.start < r.stop := hlt r hr
    have h2 : r.stop ≤ t.length := hb r hr
    have h3 : pos ≤ r.start := hpos r hr
    have hlen : (t.take r.stop).length = r.stop := by
      rw [List.length_take]
      omega
    have htake : (t.take r.stop ++ rewriteSpec r.stop rest t).take r.start
        = t.take r.start := by
      rw [List.take_append_of_le_length (by omega : r.start ≤ (t.take r.stop).length),
        List.take_take]
      congr 1
      omega
    have hdrop : (t.take r.stop ++ rewriteSpec r.stop rest t).drop r.stop
        = rewriteSpec r.stop rest t := by
      have h := List.drop_left (t.take r.stop) (rewriteSpec r.stop rest t)
      rwa [hlen] at h
    have hfin : t.take pos ++ (t.take r.start).drop pos = t.take r.start := by
      have hpt : (t.take r.start).take pos = t.take pos := by
        rw [List.take_take]
        congr 1
        omega
      rw [← hpt]
      exact List.take_append_drop pos (t.take r.start)
    rw [show rewriteSpec pos (r :: rest) t
        = (t.take r.start).drop pos ++ r.replacement ++ rewriteSpec r.stop rest t
        from rfl]
    simp only [splice]
    rw [htake, hdrop]
    simp only [← List.append_assoc]
    rw [hfin]

/-- C5: on pairwise-disjoint nonempty spans lying inside the text, applying
the splices `text[:start] + replacement + text[end:]` in strictly descending
order of `start` (which is what `applyReplacements` does) produces the text
described by the spec: each span's substring replaced by its replacement
text, every character outside the accepted spans unchanged and in the
original relative order (`rewriteSpec` over the spans in document order). -/
theorem C5_rewrite_correct (text : List Char) (reps : List Replacement)
    (hdisj : reps.Pairwise disjointSpans)
    (hlt : ∀ r ∈ reps, r.start < r.stop)
    (hb : ∀ r ∈ reps, r.stop ≤ text.length) :
    applyReplacements text reps
      = rewriteSpec 0 (List.insertionSort startAsc reps) text := by
  have hpermD : (List.insertionSort startDesc reps).Perm reps :=
    List.perm_insertionSort startDesc reps
  have hpermA : (List.insertionSort startAsc reps).Perm reps :=
    List.perm_insertionSort startAsc reps
  have hsortD : (List.insertionSort startDesc reps).Pairwise startDesc :=
    List.sorted_insertionSort startDesc reps
  have hsortA : (List.insertionSort startAsc reps).Pairwise startAsc :=
    List.sorted_insertionSort startAsc reps
  have hsymmNe : Symmetric fun a b : Replacement => a.start ≠ b.start :=
    fun _ _ h => h.symm
  have hsymmDisj : Symmetric disjointSpans := by
    intro a b h
    rcases h with h | h
    · exact Or.inr h
    · exact Or.inl h
  have hne : reps.Pairwise fun a b => a.start ≠ b.start := by
    refine List.Pairwise.imp_of_mem ?_ hdisj
    intro a b ha hbm hab
    rcases hab with h | h
    · have := hlt a ha
      omega
    · have := hlt b hbm
      omega
  have hpermRev : (List.insertionSort startDesc reps).reverse.Perm
      (List.insertionSort startAsc reps) :=
    (((List.insertionSort startDesc reps).reverse_perm).trans hpermD).trans hpermA.symm
  have hmemRev : ∀ x ∈ (List.insertionSort startDesc reps).reverse, x ∈ reps :=
    fun x hx => hpermD.mem_iff.mp (((List.insertionSort startDesc reps).reverse_perm).mem_iff.mp hx)
  have hrevAsc : (List.insertionSort startDesc reps).reverse.Pairwise startAsc := by
    rw [List.pairwise_reverse]
    exact hsortD
  have hneA : (List.insertionSort startAsc reps).Pairwise
      fun a b => a.start ≠ b.start :=
    (hpermA.pairwise_iff fun h => h.symm).mpr hne
  have hneRev : (List.insertionSort startDesc reps).reverse.Pairwise
      fun a b => a.start ≠ b.start :=
    (hpermRev.pairwise_iff fun h => h.symm).mpr hneA
  have hstrictA : (List.insertionSort startAsc reps).Pairwise startLT :=
    (hsortA.and hneA).imp fun hab => lt_of_le_of_ne hab.1 hab.2
  have hstrictRev : (List.insertionSort startDesc reps).reverse.Pairwise startLT :=
    (hrevAsc.and hneRev).imp fun hab => lt_of_le_of_ne hab.1 hab.2
  have heq : (List.insertionSort startDesc reps).reverse
      = List.insertionSort startAsc reps :=
    List.eq_of_perm_of_sorted hpermRev hstrictRev hstrictA
  have hdisjRev : (List.insertionSort startDesc reps).reverse.Pairwise disjointSpans :=
    (hpermRev.pairwise_iff fun h => hsymmDisj h).mpr ((hpermA.pairwise_iff fun h => hsymmDisj h).mpr hdisj)
  have hchain : (List.insertionSort startDesc reps).reverse.Pairwise
      fun a b => a.stop ≤ b.start := by
    refine List.Pairwise.imp_of_mem ?_ (hrevAsc.and hdisjRev)
    intro a b ha hbm hab
    rcases hab.2 with h | h
    · exact h
    · have h1 := hlt b (hmemRev b hbm)
      have h2 : a.start ≤ b.start := hab.1
      omega
  have hfold : applyReplacements text reps
      = (List.insertionSort startDesc reps).reverse.foldr
          (fun r u => splice u r.start r.stop r.replacement) text := by
    rw [List.foldr_reverse]
    rfl
  rw [hfold,
    foldr_splice_sorted text ((List.insertionSort startDesc reps).reverse) 0
      hchain (fun r _ => Nat.zero_le r.start)
      (fun x hx => hlt x (hmemRev x hx))
      (fun x hx => hb x (hmemRev x hx)),
    heq]
  simp

/-- Witness for C5 at a concrete text and two disjoint spans: splicing
right-to-left equals the spec-side document-order reconstruction. -/
theorem C5_rewrite_correct_witness :
    applyReplacements "abcdef".toList
        [⟨4, 6, ['e', 'f'], ['Z'], "X", 1⟩, ⟨1, 2, ['b'], ['X', 'Y'], "X", 1⟩]
      = rewriteSpec 0 (List.insertionSort startAsc
          [⟨4, 6, ['e', 'f'], ['Z'], "X", 1⟩, ⟨1, 2, ['b'], ['X', 'Y'], "X", 1⟩])
          "abcdef".toList :=
  C5_rewrite_correct "abcdef".toList
    [⟨4, 6, ['e', 'f'], ['Z'], "X", 1⟩, ⟨1, 2, ['b'], ['X', 'Y'], "X", 1⟩]
    (by decide) (by decide) (by decide)

/-!  ## Casing matcher -/

/-- C6 counterexample: on the whitespace-only original span `" "`, the span
is not uppercase (the sole character is not an uppercase letter, and Python's
`isupper` is false), yet it has no space-delimited words at all, so "every
word of length > 1 in the original is capitalized" holds vacuously and the
claim demands the word-capitalized replacement `"A"`; the code's `words and
...` guard instead passes `"a"` through unchanged. -/
theorem C6_match_casing_cex :
    (' ').isUpper = false
  ∧ pyIsUpperS [' '] = false
  ∧ pySplit [' '] = []
  ∧ match_casing [' '] ['a'] = ['a']
  ∧ capWords ['a'] = ['A']
  ∧ (['a'] : List Char) ≠ ['A'] :=
  ⟨rfl, rfl, rfl, rfl, rfl, by decide⟩

/-- C6 (amended): if the original span is `isupper`, the replacement is
fully uppercased; otherwise, if the original contains at least one
whitespace-delimited word and every such word of length > 1 is
capitalized-first-rest-lowercase, every word of the replacement is
capitalized; otherwise the replacement is returned unchanged. -/
theorem C6_match_casing_amended (source repl : List Char) :
    (pyIsUpperS source = true → match_casing source repl = repl.map Char.toUpper)
  ∧ (pyIsUpperS source = false → pySplit source ≠ [] →
      (∀ w ∈ pySplit source, 1 < w.length → capPatternB w = true) →
      match_casing source repl = capWords repl)
  ∧ (pyIsUpperS source = false →
      ¬(pySplit source ≠ [] ∧
        ∀ w ∈ pySplit source, 1 < w.length → capPatternB w = true) →
      match_casing source repl = repl) := by
  refine ⟨?_, ?_, ?_⟩
  · intro h
    unfold match_casing
    rw [if_pos h]
  · intro h hne hall
    have h1 : (pySplit source).isEmpty = false := by
      rcases hsp : pySplit source with _ | ⟨a, l⟩
      · exact absurd hsp hne
      · rfl
    have hcond : (!(pySplit source).isEmpty &&
        ((pySplit source).filter fun w => decide (1 < w.length)).all capPatternB)
        = true := by
      rw [Bool.and_eq_true]
      refine ⟨by rw [h1]; rfl, ?_⟩
      rw [List.all_eq_true]
      intro w hw
      rw [List.mem_filter] at hw
      exact hall w hw.1 (by simpa using hw.2)
    simp only [match_casing]
    rw [if_neg (by simp [h]), if_pos hcond]
  · intro h hnot
    have hcond : (!(pySplit source).isEmpty &&
        ((pySplit source).filter fun w => decide (1 < w.length)).all capPatternB)
        = false := by
      cases hb2 : (!(pySplit source).isEmpty &&
          ((pySplit source).filter fun w => decide (1 < w.length)).all capPatternB) with
      | false => rfl
      | true =>
        exfalso
        apply hnot
        rw [Bool.and_eq_true] at hb2
        constructor
        · intro hempty
          rw [hempty] at hb2
          simp at hb2
        · intro w hw hlen
          exact List.all_eq_true.mp hb2.2 w
            (List.mem_filter.mpr ⟨hw, by simpa using hlen⟩)
    simp only [match_casing]
    rw [if_neg (by simp [h]), if_neg (by rw [hcond]; simp)]

/-- Witness for C6 at the spec's three scenario inputs: all-caps original
uppercases the replacement, title-case original capitalizes each word of the
replacement, and an all-lowercase original passes it through unchanged. -/
theorem C6_match_casing_amended_witness :
    match_casing "JAN".toList "ab cd".toList = "ab cd".toList.map Char.toUpper
  ∧ match_casing "Jan Kowalski".toList "ab cd".toList = capWords "ab cd".toList
  ∧ match_casing "jan".toList "ab".toList = "ab".toList :=
  ⟨(C6_match_casing_amended "JAN".toList "ab cd".toList).1 (by decide),
   (C6_match_casing_amended "Jan Kowalski".toList "ab cd".toList).2.1
     (by decide) (by decide) (by decide),
   (C6_match_casing_amended "jan".toList "ab".toList).2.2 (by decide) (by decide)⟩
